import Mathlib

/-!  Shallow embedding of the OpenReader text/audio synchronization core:
     the chunker, the syllable/punctuation weight model, the timestamp
     distributor, the character-alignment and acoustic-alignment resolvers,
     the acoustic speech segmenter, and the playback controller handlers.
     JavaScript numbers are modelled as rationals (exact arithmetic); IEEE
     rounding is not modelled.  Strings are ASCII in all relevant inputs, so
     JS `toLowerCase`/`trim` coincide with `Char.toLower`/whitespace trim. -/

namespace OpenReader

/-- Word timing record (`WordInfo` in `lib/types.ts`). -/
structure WordInfo where
  text : String
  startTime : ℚ
  endTime : ℚ
  index : ℕ
deriving Repr, DecidableEq

/-- Vowel test: the character class `[aeiouy]` of `countSyllables`. -/
def isVowelY (c : Char) : Bool :=
  c = 'a' || c = 'e' || c = 'i' || c = 'o' || c = 'u' || c = 'y'

/-- The character class `[^laeiouy]` of the silent-suffix regular expression. -/
def notLVowelY (c : Char) : Bool :=
  !(c = 'l' || isVowelY c)

/-- JS `String.prototype.trim`: strip whitespace from both ends. -/
def jsTrim (s : List Char) : List Char :=
  ((s.dropWhile Char.isWhitespace).reverse.dropWhile Char.isWhitespace).reverse

/-- `word.replace(/(?:[^laeiouy]es|ed|[^laeiouy]e)$/, '')`: the leftmost (hence
longest-suffix-first) end-anchored match is removed.  A `Xes` suffix with
`X ∉ laeiouy` starts one position earlier than the two-character alternatives,
so it wins; otherwise `ed` and `Xe` (`X ∉ laeiouy`) are checked at the last two
characters.  The three cases are distinguished by the final character. -/
def dropSilentSuffix (w : List Char) : List Char :=
  match w.reverse with
  | 's' :: 'e' :: x :: rest => if notLVowelY x then rest.reverse else w
  | 'd' :: 'e' :: rest => rest.reverse
  | 'e' :: x :: rest => if notLVowelY x then rest.reverse else w
  | _ => w

/-- `word.match(/[aeiouy]{1,2}/g)` match count: the greedy scan consumes two
vowels per match when two are adjacent, otherwise one, so a maximal vowel run
of length k yields ⌈k/2⌉ matches. -/
def countVowelGroups : List Char → ℕ
  | [] => 0
  | [c] => if isVowelY c then 1 else 0
  | c :: c2 :: rest =>
    if isVowelY c then
      if isVowelY c2 then 1 + countVowelGroups rest
      else 1 + countVowelGroups (c2 :: rest)
    else countVowelGroups (c2 :: rest)

/-- `countSyllables` from `text-utils.ts`: lower-case and trim, return 0 for
the empty word and 1 for words of length ≤ 2, otherwise drop a silent suffix,
drop a word-initial `y`, and count vowel groups (at least 1). -/
def countSyllables (word : List Char) : ℕ :=
  let w := jsTrim (word.map Char.toLower)
  if w.length = 0 then 0
  else if w.length ≤ 2 then 1
  else
    let w1 := dropSilentSuffix w
    let w2 := match w1 with
      | 'y' :: rest => rest
      | other => other
    max 1 (countVowelGroups w2)

/-- The punctuation class `[.,!?;:]` of `getWordWeight`. -/
def isPunct (c : Char) : Bool :=
  c = '.' || c = ',' || c = '!' || c = '?' || c = ';' || c = ':'

/-- The `pauseWeight` selection of `getWordWeight`: the source tests
`/[.,!?;:]$/` and then refines with `/[.!?]$/` and `/[;:]$/`, the remaining
punctuation case being the comma; here the same four-way split is made
directly on the final character. -/
def pauseWeightOf : Option Char → ℚ
  | some c =>
    if c = '.' || c = '!' || c = '?' then 3
    else if c = ';' || c = ':' then 2
    else if c = ',' then 3 / 2
    else 0
  | none => 0

/-- `getWordWeight` from `text-utils.ts`.  The `pauseWeight` selection is
split out as `pauseWeightOf` over the word's final character (`none`
models the empty word, which has no trailing punctuation). -/
def getWordWeight (word : String) : ℚ :=
  let cleanWord := word.data.filter (fun c => !isPunct c)
  let syllables := countSyllables cleanWord
  let pauseWeight : ℚ := pauseWeightOf word.data.getLast?
  let lengthBonus : ℚ := if 10 < cleanWord.length then 1 / 2 else 0
  let shortPenalty : ℚ := if cleanWord.length ≤ 2 then -(1 / 5) else 0
  max (3 / 10) ((syllables : ℚ) + pauseWeight + lengthBonus + shortPenalty + 1 / 2)

/-- The cumulative layout loop of `generateWordTimestamps`: each word takes
`weight / totalWeight * duration` seconds starting where the previous one
ended; `idx` is the running array index. -/
def genAux (totalWeight duration : ℚ) : List (String × ℚ) → ℚ → ℕ → List WordInfo
  | [], _, _ => []
  | (w, wt) :: rest, currentTime, idx =>
    let wordDuration := wt / totalWeight * duration
    { text := w, startTime := currentTime, endTime := currentTime + wordDuration,
      index := idx }
      :: genAux totalWeight duration rest (currentTime + wordDuration) (idx + 1)

/-- `generateWordTimestamps` from `text-utils.ts`. -/
def generateWordTimestamps (words : List String) (duration : ℚ) : List WordInfo :=
  let weights := words.map getWordWeight
  genAux weights.sum duration (words.zip weights) 0 0

example : countSyllables "hello".data = 2 := by decide

example : pauseWeightOf (some '.') = 3 := rfl

mutual

/-- JS `String.prototype.split(/\s+/)` on a list of characters, inside a
token (accumulator `acc` holds the pending token reversed).  Splitting the
empty string yields `[[]]`, one empty token — the JS behaviour that makes
`chunkText("")` produce one chunk. -/
def splitTok : List Char → List Char → List (List Char)
  | [], acc => [acc.reverse]
  | c :: rest, acc =>
    if c.isWhitespace then acc.reverse :: splitSep rest
    else splitTok rest (c :: acc)

/-- JS `split(/\s+/)`, inside a run of separator whitespace: further
whitespace is absorbed into the same separator. -/
def splitSep : List Char → List (List Char)
  | [] => [[]]
  | c :: rest => if c.isWhitespace then splitSep rest else splitTok rest [c]

end

/-- JS `s.split(/\s+/)`. -/
def splitWs (s : List Char) : List (List Char) :=
  splitTok s []

/-- Audio chunk record (`AudioChunk` in `lib/types.ts`), without the
optional `error` field, which no claim touches. -/
structure AudioChunk where
  id : String
  text : String
  words : List WordInfo
  audioUrl : Option String
  duration : ℚ
  isLoading : Bool
deriving Repr, DecidableEq

/-- The JS map `timestamps.map((ts, idx) => ({ ...ts, index: globalWordIndex + idx }))`
inside `chunkText`; `idx` is the running map index. -/
def withGlobalIdx (globalWordIndex : ℕ) : List WordInfo → ℕ → List WordInfo
  | [], _ => []
  | ts :: rest, idx =>
    { ts with index := globalWordIndex + idx } :: withGlobalIdx globalWordIndex rest (idx + 1)

/-- The `for (let i = 0; i < allWords.length; i += wordsPerChunk)` loop of
`chunkText`.  `fuel` bounds the number of iterations; it is initialized to
the word count, which suffices whenever `wordsPerChunk ≥ 1` (for
`wordsPerChunk = 0` the JS loop never terminates). -/
def chunkTextAux (wordsPerChunk : ℕ) : ℕ → List String → ℕ → ℕ → List AudioChunk
  | _, [], _, _ => []
  | 0, _ :: _, _, _ => []
  | fuel + 1, w :: rest0, chunkNo, globalWordIndex =>
    let allWords := w :: rest0
    let chunkWords := allWords.take wordsPerChunk
    let estimatedDuration : ℚ := (chunkWords.length : ℚ) / 150 * 60
    let timestamps := generateWordTimestamps chunkWords estimatedDuration
    { id := "chunk-" ++ toString chunkNo,
      text := String.intercalate " " chunkWords,
      words := withGlobalIdx globalWordIndex timestamps 0,
      audioUrl := none,
      duration := estimatedDuration,
      isLoading := false }
      :: chunkTextAux wordsPerChunk fuel (allWords.drop wordsPerChunk) (chunkNo + 1)
          (globalWordIndex + chunkWords.length)

/-- `chunkText` from `text-utils.ts`: `text.trim().split(/\s+/)` then chunks
of `wordsPerChunk` words, each with a 150-words-per-minute duration estimate
distributed by `generateWordTimestamps`. -/
def chunkText (text : String) (wordsPerChunk : ℕ) : List AudioChunk :=
  let allWords := (splitWs (jsTrim text.data)).map (fun l => String.mk l)
  chunkTextAux wordsPerChunk allWords.length allWords 0 0

/-- All `index` fields of all word units of a chunk list, in order. -/
def allWordIndices : List AudioChunk → List ℕ
  | [] => []
  | c :: rest => c.words.map (fun w => w.index) ++ allWordIndices rest

/-- The total word count of a text, as `chunkText` tokenizes it:
the length of `text.trim().split(/\s+/)`. -/
def totalWords (text : String) : ℕ :=
  (splitWs (jsTrim text.data)).length

example : allWordIndices (chunkText "Hello world. Goodbye now." 10) = [0, 1, 2, 3] := by decide
example : totalWords "Hello world. Goodbye now." = 4 := by decide
example : (chunkText "a b c" 2).length = 2 := by decide
example : allWordIndices (chunkText "a b c" 2) = [0, 1, 2] := by decide
example : totalWords "" = 1 := by decide
example : (chunkText "" 5).length = 1 := by decide

/-- The binary-search loop of `getCurrentWordIndex`.  `left`, `right`,
`result` are integers exactly as in the source (`right` can reach `-1`);
`mid = (left + right) / 2` with `left + right ≥ 0` in every reachable state,
so Euclidean division agrees with the JS `Math.floor`.  `fuel` bounds the
iteration count; `words.length` iterations always suffice because
`right - left` strictly decreases.  The fallback element of `getD` is never
read while `0 ≤ mid ≤ words.length - 1`, which holds in every reachable
state. -/
def searchLoop (words : List WordInfo) (adjustedTime : ℚ) :
    ℕ → ℤ → ℤ → ℤ → ℤ
  | 0, _, _, result => min result ((words.length : ℤ) - 1)
  | fuel + 1, left, right, result =>
    if left ≤ right then
      let mid := (left + right) / 2
      let word := words.getD mid.toNat { text := "", startTime := 0, endTime := 0, index := 0 }
      if word.startTime ≤ adjustedTime ∧ adjustedTime < word.endTime then mid
      else if adjustedTime < word.startTime then
        searchLoop words adjustedTime fuel left (mid - 1) result
      else
        searchLoop words adjustedTime fuel (mid + 1) right mid
    else min result ((words.length : ℤ) - 1)

/-- `getCurrentWordIndex` from `text-utils.ts`: word lookup with a fixed
100 ms lookahead; returns 0 for an empty word list.  `playbackSpeed` is
accepted and ignored, as in the source. -/
def getCurrentWordIndex (words : List WordInfo) (currentTime : ℚ)
    (playbackSpeed : ℚ) : ℤ :=
  if words.length = 0 then 0
  else
    let adjustedTime := currentTime + 100 / 1000
    searchLoop words adjustedTime words.length 0 ((words.length : ℤ) - 1) 0

/-- Word span with confidence (`WordTimestamp` in the ElevenLabs and audio
analysis utilities).  The source field `end` is renamed `endTime`: `end` is
a Lean keyword. -/
structure WordTimestamp where
  text : String
  start : ℚ
  endTime : ℚ
  confidence : ℚ
deriving Repr, DecidableEq

/-- One non-space character with its provider timing, an entry of the
`nonSpaceChars` array of `convertCharacterTimingsToWords`. -/
structure CharTiming where
  char : Char
  start : ℚ
  endTime : ℚ
deriving Repr, DecidableEq

/-- The inner character-matching loop of `convertCharacterTimingsToWords`:
walk the word's characters against the candidate characters, case
insensitively; on the first mismatch stop (JS `break`).  Accumulators:
`wordStart` is the running minimum of matched character starts (`none`
models the `Infinity` initializer), `wordEnd` the running maximum of
matched character ends (initialized to 0 in the source), `matched` the
count `matchedChars`. -/
def scanWord : List Char → List CharTiming → Option ℚ → ℚ → ℕ →
    Option ℚ × ℚ × ℕ
  | [], _, wordStart, wordEnd, matched => (wordStart, wordEnd, matched)
  | _ :: _, [], wordStart, wordEnd, matched => (wordStart, wordEnd, matched)
  | c :: cs, t :: ts, wordStart, wordEnd, matched =>
    if t.char.toLower = c.toLower then
      let newStart := match wordStart with
        | none => t.start
        | some v => min v t.start
      scanWord cs ts (some newStart) (max wordEnd t.endTime) (matched + 1)
    else (wordStart, wordEnd, matched)

/-- The maximal case-insensitively matching run of candidate characters
against a word's characters: the characters the source loop consumes before
its `break`. -/
def matchedRun : List Char → List CharTiming → List CharTiming
  | [], _ => []
  | _ :: _, [] => []
  | c :: cs, t :: ts =>
    if t.char.toLower = c.toLower then t :: matchedRun cs ts else []

/-- The word loop of `convertCharacterTimingsToWords`.  `charIndex` is the
cursor into `nonSpaceChars`; `prevEnd` is the end of the last emitted span
(`0` before the first word), which the source reads back from
`wordTimings[wordTimings.length - 1].end`.  A word is fully matched when
`matchedChars === wordLength && wordStart !== Infinity`; otherwise the
fallback span `[prevEnd, prevEnd + 0.3)` with confidence 0.5 is pushed.  In
both branches the cursor advances by the word's length. -/
def convertAux (nonSpaceChars : List CharTiming) :
    List String → ℕ → ℚ → List WordTimestamp
  | [], _, _ => []
  | word :: rest, charIndex, prevEnd =>
    let wordLength := word.length
    match scanWord word.data (nonSpaceChars.drop charIndex) none 0 0 with
    | (some wordStart, wordEnd, matchedChars) =>
      if matchedChars = wordLength then
        { text := word, start := wordStart, endTime := wordEnd, confidence := 1 }
          :: convertAux nonSpaceChars rest (charIndex + wordLength) wordEnd
      else
        { text := word, start := prevEnd, endTime := prevEnd + 3 / 10, confidence := 1 / 2 }
          :: convertAux nonSpaceChars rest (charIndex + wordLength) (prevEnd + 3 / 10)
    | (none, _, _) =>
      { text := word, start := prevEnd, endTime := prevEnd + 3 / 10, confidence := 1 / 2 }
        :: convertAux nonSpaceChars rest (charIndex + wordLength) (prevEnd + 3 / 10)

/-- `convertCharacterTimingsToWords` from the ElevenLabs utilities.  The
alignment arrives as three parallel arrays (characters, start seconds, end
seconds); callers validate equal lengths (`isValidElevenLabsResponse`), so
the zip is exact.  A character survives the whitespace filter when
`char.trim() !== ''`, i.e. when it is not whitespace.  `globalStartIndex`
is accepted and never used, as in the source. -/
def convertCharacterTimingsToWords (text : String) (characters : List Char)
    (startTimes endTimes : List ℚ) (globalStartIndex : ℕ) : List WordTimestamp :=
  let words := (splitWs (jsTrim text.data)).map (fun l => String.mk l)
  let nonSpaceChars := (characters.zip (startTimes.zip endTimes)).filterMap
    (fun ct => if ct.1.isWhitespace then none
               else some { char := ct.1, start := ct.2.1, endTime := ct.2.2 : CharTiming })
  convertAux nonSpaceChars words 0 0

/-- Speech segment (`AudioSegment` in the audio analysis module).  The
source field `end` is renamed `endTime` (`end` is a Lean keyword).  The
source stores the peak RMS amplitude; since the embedding compares squared
amplitudes (see `detectLoop`), `amplitude` here holds the squared peak —
the maximum commutes with squaring on non-negative reals, and no claim
reads this field. -/
structure AudioSegment where
  start : ℚ
  endTime : ℚ
  amplitude : ℚ
deriving Repr, DecidableEq

/-- `AMPLITUDE_THRESHOLD = 0.02`, squared (the source compares
`sqrt(meanSquare) > 0.02`; both sides are non-negative, so this is
equivalent to `meanSquare > 0.0004`, which keeps the embedding rational). -/
def amplitudeThresholdSq : ℚ := 1 / 2500

/-- `MIN_SEGMENT_DURATION = 0.08` (80 ms). -/
def minSegmentDuration : ℚ := 2 / 25

/-- `MIN_SILENCE_DURATION = 0.05` (50 ms). -/
def minSilenceDuration : ℚ := 1 / 20

/-- The window loop of `detectSpeechSegments`.  Each step consumes one
analysis window (`windowSize` samples, the last window possibly shorter),
computes the window's mean square (the source takes its square root as the
RMS; the comparison with the threshold is squared here), and updates the
state `(segmentStart, silenceDuration, maxAmplitude, segments)` exactly as
the source does: speech extends/opens a segment and resets the silence
clock; silence accumulates, and once it reaches `MIN_SILENCE_DURATION` an
open segment is closed and kept only if it is at least
`MIN_SEGMENT_DURATION` long.  `i` is the sample index of the window start
(`time = i / sampleRate`).  `fuel` bounds the iteration count; the sample
count suffices whenever `windowSize ≥ 1` (for `windowSize = 0` the JS loop
never terminates). -/
def detectLoop (sampleRate windowSize : ℕ) :
    ℕ → List ℚ → ℕ → Option ℚ → ℚ → ℚ → List AudioSegment →
    Option ℚ × ℚ × List AudioSegment
  | 0, _, _, segmentStart, _, maxAmplitude, segments =>
    (segmentStart, maxAmplitude, segments)
  | _ + 1, [], _, segmentStart, _, maxAmplitude, segments =>
    (segmentStart, maxAmplitude, segments)
  | fuel + 1, x :: rest, i, segmentStart, silenceDuration, maxAmplitude, segments =>
    let window := (x :: rest).take windowSize
    let meanSquare := (window.map (fun v => v * v)).sum / (window.length : ℚ)
    let time : ℚ := (i : ℚ) / (sampleRate : ℚ)
    let tail := (x :: rest).drop windowSize
    if amplitudeThresholdSq < meanSquare then
      match segmentStart with
      | none =>
        detectLoop sampleRate windowSize fuel tail (i + windowSize)
          (some time) 0 meanSquare segments
      | some s =>
        detectLoop sampleRate windowSize fuel tail (i + windowSize)
          (some s) 0 (max maxAmplitude meanSquare) segments
    else
      let silence := silenceDuration + (windowSize : ℚ) / (sampleRate : ℚ)
      match segmentStart with
      | some s =>
        if minSilenceDuration ≤ silence then
          let segmentEnd := time - silence
          let newSegments :=
            if minSegmentDuration ≤ segmentEnd - s then
              segments ++ [{ start := s, endTime := segmentEnd, amplitude := maxAmplitude }]
            else segments
          detectLoop sampleRate windowSize fuel tail (i + windowSize)
            none silence 0 newSegments
        else
          detectLoop sampleRate windowSize fuel tail (i + windowSize)
            (some s) silence maxAmplitude segments
      | none =>
        detectLoop sampleRate windowSize fuel tail (i + windowSize)
          none silence maxAmplitude segments

/-- `detectSpeechSegments` from the audio analysis module.
`WINDOW_SIZE = Math.floor(sampleRate * 0.01)` is `sampleRate / 100` in
exact arithmetic.  After the loop, a still-open segment is pushed running
to the end of the buffer — with no minimum-duration check. -/
def detectSpeechSegments (channelData : List ℚ) (sampleRate : ℕ) : List AudioSegment :=
  let windowSize := sampleRate / 100
  match detectLoop sampleRate windowSize channelData.length channelData 0 none 0 0 [] with
  | (some s, maxAmplitude, segments) =>
    segments ++ [{ start := s, endTime := (channelData.length : ℚ) / (sampleRate : ℚ),
                   amplitude := maxAmplitude }]
  | (none, _, segments) => segments

/-- The fallback loop of `splitSegmentsToWords` for zero segments: the
weight-model distribution over `totalDuration` with confidence 0.5. -/
def fallbackAux (totalWeight totalDuration : ℚ) :
    List (String × ℚ) → ℚ → List WordTimestamp
  | [], _ => []
  | (w, wt) :: rest, currentTime =>
    let duration := wt / totalWeight * totalDuration
    { text := w, start := currentTime, endTime := currentTime + duration,
      confidence := 1 / 2 }
      :: fallbackAux totalWeight totalDuration rest (currentTime + duration)

/-- The inner loop of the non-empty branch of `splitSegmentsToWords`:
distribute one segment's duration across its words by weight, confidence
0.7, starting at the segment's start. -/
def segDistAux (totalWeight segmentDuration : ℚ) :
    List (String × ℚ) → ℚ → List WordTimestamp
  | [], _ => []
  | (w, wt) :: rest, currentTime =>
    let wordDuration := wt / totalWeight * segmentDuration
    { text := w, start := currentTime, endTime := currentTime + wordDuration,
      confidence := 7 / 10 }
      :: segDistAux totalWeight segmentDuration rest (currentTime + wordDuration)

/-- The segment loop of `splitSegmentsToWords`: for segment `segIdx`, the
word group is `words.slice(⌊segIdx·wps⌋, ⌊(segIdx+1)·wps⌋)` with
`wps = words.length / segments.length`; an empty group is skipped
(`continue`). -/
def splitSegLoop (words : List String) (wordsPerSegment : ℚ) :
    List AudioSegment → ℕ → List WordTimestamp
  | [], _ => []
  | seg :: rest, segIdx =>
    let segmentDuration := seg.endTime - seg.start
    let startWordIdx := (⌊(segIdx : ℚ) * wordsPerSegment⌋).toNat
    let endWordIdx := (⌊((segIdx : ℚ) + 1) * wordsPerSegment⌋).toNat
    let segmentWords := (words.take endWordIdx).drop startWordIdx
    let weights := segmentWords.map getWordWeight
    (if segmentWords.isEmpty then []
     else segDistAux weights.sum segmentDuration (segmentWords.zip weights) seg.start)
      ++ splitSegLoop words wordsPerSegment rest (segIdx + 1)

/-- `splitSegmentsToWords` from the audio analysis module (fewer segments
than words): with zero segments, fall back to the weight-model estimate
over the whole duration; otherwise distribute word groups over segments. -/
def splitSegmentsToWords (segments : List AudioSegment) (words : List String)
    (totalDuration : ℚ) : List WordTimestamp :=
  if segments.length = 0 then
    let weights := words.map getWordWeight
    fallbackAux weights.sum totalDuration (words.zip weights) 0
  else
    let wordsPerSegment : ℚ := (words.length : ℚ) / (segments.length : ℚ)
    splitSegLoop words wordsPerSegment segments 0

/-- The word loop of `mergeSegmentsToWords`: word `i` takes the segment
group `segments.slice(⌊i·spw⌋, ⌊(i+1)·spw⌋)`; a non-empty group yields the
span from the group's first start to its last end, confidence 0.8. -/
def mergeLoop (segments : List AudioSegment) (segmentsPerWord : ℚ) :
    List String → ℕ → List WordTimestamp
  | [], _ => []
  | w :: rest, i =>
    let startIdx := (⌊(i : ℚ) * segmentsPerWord⌋).toNat
    let endIdx := (⌊((i : ℚ) + 1) * segmentsPerWord⌋).toNat
    let wordSegments := (segments.take endIdx).drop startIdx
    (match wordSegments.head?, wordSegments.getLast? with
     | some s0, some sl =>
       [{ text := w, start := s0.start, endTime := sl.endTime, confidence := 4 / 5 }]
     | _, _ => [])
      ++ mergeLoop segments segmentsPerWord rest (i + 1)

/-- `mergeSegmentsToWords` from the audio analysis module (more segments
than words). -/
def mergeSegmentsToWords (segments : List AudioSegment) (words : List String) :
    List WordTimestamp :=
  let segmentsPerWord : ℚ := (segments.length : ℚ) / (words.length : ℚ)
  mergeLoop segments segmentsPerWord words 0

/-- `alignSegmentsToWords` from the audio analysis module: 1:1 pairing with
confidence 1.0 on an exact count match, otherwise merge or split. -/
def alignSegmentsToWords (segments : List AudioSegment) (words : List String)
    (totalDuration : ℚ) : List WordTimestamp :=
  if segments.length = words.length then
    (segments.zip words).map (fun sw =>
      { text := sw.2, start := sw.1.start, endTime := sw.1.endTime, confidence := 1 })
  else if words.length < segments.length then
    mergeSegmentsToWords segments words
  else
    splitSegmentsToWords segments words totalDuration

/-- Playback state (`PlaybackState` in `lib/types.ts`). -/
inductive PlaybackState where
  | idle
  | loading
  | playing
  | paused
  | ended
deriving Repr, DecidableEq

/-- The JS map inside `updateChunkTimings`:
`chunk.words.map((word, idx) => ({...word, startTime: wordTimings[idx]?.start ?? word.startTime, endTime: wordTimings[idx]?.end ?? word.endTime}))`. -/
def updateWords (wordTimings : List WordTimestamp) : List WordInfo → ℕ → List WordInfo
  | [], _ => []
  | word :: rest, idx =>
    { word with
      startTime := match wordTimings.get? idx with
        | some t => t.start
        | none => word.startTime,
      endTime := match wordTimings.get? idx with
        | some t => t.endTime
        | none => word.endTime }
      :: updateWords wordTimings rest (idx + 1)

/-- `updateChunkTimings` from the `useAudioManager` hook, as a pure function
from the state it closes over (`playbackState`, `chunks`) and its arguments
to the chunk list passed to `onChunksUpdate`.  When the guard fires
(state neither `idle` nor `paused`) the source returns without calling
`onChunksUpdate`: the chunk list is unchanged.  The source indexes
`updatedChunks[chunkIndex]` unconditionally; callers always pass a valid
index, and an out-of-range index is modelled as leaving the list unchanged. -/
def updateChunkTimings (playbackState : PlaybackState) (chunks : List AudioChunk)
    (chunkIndex : ℕ) (wordTimings : List WordTimestamp) : List AudioChunk :=
  if playbackState ≠ PlaybackState.idle ∧ playbackState ≠ PlaybackState.paused then
    chunks
  else
    match chunks.get? chunkIndex with
    | none => chunks
    | some chunk =>
      let newWords := updateWords wordTimings chunk.words 0
      let newDuration := match wordTimings.getLast? with
        | some t => t.endTime
        | none => chunk.duration
      chunks.set chunkIndex { chunk with words := newWords, duration := newDuration }

/-- The audio-manager state owned by `useAudioManager` that `handleEnded`
reads and writes: the chunk cursor, the highlighted word, the playback
state, and the `<audio>` element's current source. -/
structure ManagerState where
  currentChunkIndex : ℕ
  currentWordIndex : ℕ
  playbackState : PlaybackState
  audioSrc : Option String
deriving Repr, DecidableEq

/-- The `audioUrlsRef.current.get(next) || chunks[next]?.audioUrl` chain of
`handleEnded` (absent URLs are modelled as `none`; the JS `||` also treats
the empty string as absent, a case that never arises for object URLs). -/
def nextUrlOf (chunks : List AudioChunk) (audioUrls : ℕ → Option String)
    (nextChunkIndex : ℕ) : Option String :=
  match audioUrls nextChunkIndex with
  | some url => some url
  | none =>
    match chunks.get? nextChunkIndex with
    | some c => c.audioUrl
    | none => none

/-- The `ended` event handler of `useAudioManager`, as a single-step
transition on `ManagerState`.  The JS guard `currentChunkIndex <
chunks.length - 1` is `currentChunkIndex + 1 < chunks.length` over ℕ (both
are false for an empty chunk list).  In the loaded-next branch the source
sets the audio source and the chunk cursor and never touches
`playbackState`; the asynchronous `audio.play()` rejection fallback
(`PlaybackRejected`, an external device refusal) is outside this
transition. -/
def handleEnded (chunks : List AudioChunk) (audioUrls : ℕ → Option String)
    (s : ManagerState) : ManagerState :=
  if s.currentChunkIndex + 1 < chunks.length then
    let nextChunkIndex := s.currentChunkIndex + 1
    match nextUrlOf chunks audioUrls nextChunkIndex with
    | some url =>
      { s with audioSrc := some url, currentChunkIndex := nextChunkIndex }
    | none =>
      { s with playbackState := PlaybackState.paused }
  else
    { s with playbackState := PlaybackState.ended,
             currentWordIndex := 0, currentChunkIndex := 0 }

/-- The running-minimum step for the `wordStart` accumulator of `scanWord`
(`none` is the `Infinity` initializer). -/
def optMin (a : Option ℚ) (x : ℚ) : Option ℚ :=
  some (match a with
        | none => x
        | some v => min v x)

/-- The matched run of a word at a cursor position: the characters of
`nonSpaceChars` from `charIndex` on that the matching loop consumes for
`word` before its `break`. -/
def runOf (nonSpaceChars : List CharTiming) (charIndex : ℕ) (word : String) :
    List CharTiming :=
  matchedRun word.data (nonSpaceChars.drop charIndex)

theorem scanWord_eq (w : List Char) :
    ∀ (cand : List CharTiming) (s0 : Option ℚ) (e0 : ℚ) (m0 : ℕ),
      scanWord w cand s0 e0 m0 =
        ((matchedRun w cand).foldl (fun a t => optMin a t.start) s0,
         (matchedRun w cand).foldl (fun a t => max a t.endTime) e0,
         m0 + (matchedRun w cand).length) := by
  induction w with
  | nil => intro cand s0 e0 m0; cases cand <;> simp [scanWord, matchedRun]
  | cons c cs ih =>
    intro cand s0 e0 m0
    cases cand with
    | nil => simp [scanWord, matchedRun]
    | cons t ts =>
      by_cases hm : t.char.toLower = c.toLower
      · simp only [scanWord, matchedRun, if_pos hm, List.foldl_cons, List.length_cons]
        rw [ih ts]
        simp [optMin]
        omega
      · simp [scanWord, matchedRun, if_neg hm]

theorem foldl_max_spec (l : List CharTiming) :
    ∀ e0 : ℚ,
      (l.foldl (fun a t => max a t.endTime) e0 = e0 ∨
        l.foldl (fun a t => max a t.endTime) e0 ∈ l.map (fun t => t.endTime)) ∧
      e0 ≤ l.foldl (fun a t => max a t.endTime) e0 ∧
      ∀ t ∈ l, t.endTime ≤ l.foldl (fun a t => max a t.endTime) e0 := by
  induction l with
  | nil => intro e0; simp
  | cons t ts ih =>
    intro e0
    obtain ⟨h1, h2, h3⟩ := ih (max e0 t.endTime)
    simp only [List.foldl_cons, List.map_cons]
    refine ⟨?_, le_trans (le_max_left _ _) h2, ?_⟩
    · rcases h1 with h | h
      · rcases max_choice e0 t.endTime with hc | hc
        · left; rw [h, hc]
        · right; rw [h, hc]; simp
      · right; simp [h]
    · intro x hx
      rcases List.mem_cons.mp hx with rfl | hx2
      · exact le_trans (le_max_right _ _) h2
      · exact h3 x hx2

theorem foldl_optMin_some_spec (l : List CharTiming) :
    ∀ v0 : ℚ,
      ∃ r, l.foldl (fun a t => optMin a t.start) (some v0) = some r ∧
        (r = v0 ∨ r ∈ l.map (fun t => t.start)) ∧ r ≤ v0 ∧
        ∀ t ∈ l, r ≤ t.start := by
  induction l with
  | nil => intro v0; exact ⟨v0, rfl, Or.inl rfl, le_rfl, by simp⟩
  | cons t ts ih =>
    intro v0
    obtain ⟨r, hr, hmem, hle, hall⟩ := ih (min v0 t.start)
    refine ⟨r, ?_, ?_, le_trans hle (min_le_left _ _), ?_⟩
    · simpa [optMin] using hr
    · rcases hmem with h | h
      · rcases min_choice v0 t.start with hc | hc
        · left; rw [h, hc]
        · right; rw [h, hc]; simp
      · right; simp [h]
    · intro x hx
      rcases List.mem_cons.mp hx with rfl | hx2
      · exact le_trans hle (min_le_right _ _)
      · exact hall x hx2

theorem foldl_optMin_none_spec (l : List CharTiming) (h : l ≠ []) :
    ∃ r, l.foldl (fun a t => optMin a t.start) none = some r ∧
      r ∈ l.map (fun t => t.start) ∧ ∀ t ∈ l, r ≤ t.start := by
  cases l with
  | nil => exact absurd rfl h
  | cons t ts =>
    obtain ⟨r, hr, hmem, hle, hall⟩ := foldl_optMin_some_spec ts t.start
    refine ⟨r, by simpa [optMin] using hr, ?_, ?_⟩
    · rcases hmem with hh | hh
      · simp [hh]
      · simp only [List.map_cons]
        exact List.mem_cons_of_mem _ hh
    · intro x hx
      rcases List.mem_cons.mp hx with rfl | hx2
      · exact hle
      · exact hall x hx2

theorem convertAux_length (nonSpaceChars : List CharTiming) :
    ∀ (ws : List String) (charIndex : ℕ) (prevEnd : ℚ),
      (convertAux nonSpaceChars ws charIndex prevEnd).length = ws.length := by
  intro ws
  induction ws with
  | nil => intro charIndex prevEnd; rfl
  | cons w rest ih =>
    intro charIndex prevEnd
    simp only [convertAux]
    split
    · split <;> simp [ih]
    · simp [ih]

/-- C1: for every chunk index and every refined word-timing table, if the
playback state is `playing` or `loading` when the refinement arrives,
`updateChunkTimings` leaves the chunk list — hence every chunk's `words`
array and `duration` — completely unchanged; the timing rewrite can only
happen in the `idle` or `paused` states. -/
theorem updateChunkTimings_playing_unchanged
    (st : PlaybackState) (chunks : List AudioChunk) (chunkIndex : ℕ)
    (wordTimings : List WordTimestamp)
    (h : st = PlaybackState.playing ∨ st = PlaybackState.loading) :
    updateChunkTimings st chunks chunkIndex wordTimings = chunks := by
  rcases h with h | h <;> subst h <;> rfl

/-- Witness for C1: a refined timing table arriving for chunk 0 while
playing leaves the chunk list untouched. -/
theorem updateChunkTimings_playing_unchanged_witness :
    updateChunkTimings PlaybackState.playing
      [{ id := "chunk-0", text := "hi",
         words := [{ text := "hi", startTime := 0, endTime := 1, index := 0 }],
         audioUrl := none, duration := 1, isLoading := false }] 0
      [{ text := "hi", start := 0, endTime := 2, confidence := 1 }] =
      [{ id := "chunk-0", text := "hi",
         words := [{ text := "hi", startTime := 0, endTime := 1, index := 0 }],
         audioUrl := none, duration := 1, isLoading := false }] :=
  updateChunkTimings_playing_unchanged PlaybackState.playing _ 0 _ (Or.inl rfl)

/-- C9: on the `ended` event in state `playing`: with a next chunk whose
audio URL is resolvable, the controller switches the source, increments
`currentChunkIndex` by one and the state is still `playing` (the transition
is a single step, so no intermediate `idle` state ever exists); with a next
chunk that is not loaded it transitions to `paused`, keeping cursor and
source; at the end of the last chunk it transitions to `ended` and resets
`currentWordIndex` to 0. -/
theorem handleEnded_transitions (chunks : List AudioChunk)
    (audioUrls : ℕ → Option String) (s : ManagerState)
    (hplay : s.playbackState = PlaybackState.playing) :
    (∀ url, s.currentChunkIndex + 1 < chunks.length →
      nextUrlOf chunks audioUrls (s.currentChunkIndex + 1) = some url →
      handleEnded chunks audioUrls s =
        { s with audioSrc := some url,
                 currentChunkIndex := s.currentChunkIndex + 1 } ∧
      (handleEnded chunks audioUrls s).playbackState = PlaybackState.playing) ∧
    (s.currentChunkIndex + 1 < chunks.length →
      nextUrlOf chunks audioUrls (s.currentChunkIndex + 1) = none →
      (handleEnded chunks audioUrls s).playbackState = PlaybackState.paused ∧
      (handleEnded chunks audioUrls s).currentChunkIndex = s.currentChunkIndex ∧
      (handleEnded chunks audioUrls s).audioSrc = s.audioSrc) ∧
    (chunks.length ≤ s.currentChunkIndex + 1 →
      (handleEnded chunks audioUrls s).playbackState = PlaybackState.ended ∧
      (handleEnded chunks audioUrls s).currentWordIndex = 0) := by
  refine ⟨?_, ?_, ?_⟩
  · intro url hlt hurl
    simp [handleEnded, hlt, hurl, hplay]
  · intro hlt hurl
    simp [handleEnded, hlt, hurl]
  · intro hge
    simp [handleEnded, show ¬ s.currentChunkIndex + 1 < chunks.length from by omega]

/-- Witness for C9: chunk 0 ends while playing, chunk 1's URL is in the
audio-URL map — the state stays `playing` and the cursor moves to 1. -/
theorem handleEnded_transitions_witness :
    handleEnded
      [{ id := "chunk-0", text := "a",
         words := [{ text := "a", startTime := 0, endTime := 1, index := 0 }],
         audioUrl := some "u0", duration := 1, isLoading := false },
       { id := "chunk-1", text := "b",
         words := [{ text := "b", startTime := 0, endTime := 1, index := 1 }],
         audioUrl := none, duration := 1, isLoading := false }]
      (fun i => if i = 1 then some "u1" else none)
      { currentChunkIndex := 0, currentWordIndex := 0,
        playbackState := PlaybackState.playing, audioSrc := some "u0" } =
      { currentChunkIndex := 1, currentWordIndex := 0,
        playbackState := PlaybackState.playing, audioSrc := some "u1" } ∧
    (handleEnded
      [{ id := "chunk-0", text := "a",
         words := [{ text := "a", startTime := 0, endTime := 1, index := 0 }],
         audioUrl := some "u0", duration := 1, isLoading := false },
       { id := "chunk-1", text := "b",
         words := [{ text := "b", startTime := 0, endTime := 1, index := 1 }],
         audioUrl := none, duration := 1, isLoading := false }]
      (fun i => if i = 1 then some "u1" else none)
      { currentChunkIndex := 0, currentWordIndex := 0,
        playbackState := PlaybackState.playing, audioSrc := some "u0" }).playbackState =
      PlaybackState.playing :=
  (handleEnded_transitions _ _ _ rfl).1 "u1" (by decide) rfl

/-- The binary search never leaves `[0, words.length - 1]`: every reachable
state keeps `0 ≤ left`, `right ≤ length - 1` and `result ∈ [0, length - 1]`,
and each of the three exits (in-span hit, fuel/loop exit via
`min result (length - 1)`) stays inside the range. -/
theorem searchLoop_bounds (words : List WordInfo) (t : ℚ)
    (hw : 1 ≤ words.length) :
    ∀ (fuel : ℕ) (left right result : ℤ),
      0 ≤ left → right ≤ (words.length : ℤ) - 1 →
      0 ≤ result → result ≤ (words.length : ℤ) - 1 →
      0 ≤ searchLoop words t fuel left right result ∧
      searchLoop words t fuel left right result ≤ (words.length : ℤ) - 1 := by
  intro fuel
  induction fuel with
  | zero =>
    intro l r res _ _ h0 h1
    refine ⟨le_min h0 (by omega), min_le_right _ _⟩
  | succ fuel ih =>
    intro l r res hl hr h0 h1
    simp only [searchLoop]
    split
    case isTrue hlr =>
      have hmid : 0 ≤ (l + r) / 2 ∧ (l + r) / 2 ≤ r := by omega
      split
      · exact ⟨hmid.1, le_trans hmid.2 hr⟩
      · split
        · exact ih l ((l + r) / 2 - 1) res hl (by omega) h0 h1
        · exact ih ((l + r) / 2 + 1) r ((l + r) / 2) (by omega) hr hmid.1
            (le_trans hmid.2 hr)
    case isFalse hlr =>
      refine ⟨le_min h0 (by omega), min_le_right _ _⟩

/-- C10: `getCurrentWordIndex` is total and in-range: for every word list
and every current time — negative, inside a gap between spans, or past the
last span — the returned index lies in `[0, length - 1]` after the fixed
100 ms lookahead is added, and the empty list yields 0 instead of failing. -/
theorem getCurrentWordIndex_total (words : List WordInfo)
    (currentTime playbackSpeed : ℚ) :
    (words = [] → getCurrentWordIndex words currentTime playbackSpeed = 0) ∧
    (words ≠ [] →
      0 ≤ getCurrentWordIndex words currentTime playbackSpeed ∧
      getCurrentWordIndex words currentTime playbackSpeed ≤ (words.length : ℤ) - 1) := by
  constructor
  · intro h; subst h; rfl
  · intro h
    have hw : 1 ≤ words.length := List.length_pos.mpr h
    simp only [getCurrentWordIndex, if_neg (by omega : ¬ words.length = 0)]
    exact searchLoop_bounds words (currentTime + 100 / 1000) hw words.length 0
      ((words.length : ℤ) - 1) 0 le_rfl le_rfl le_rfl (by omega)

/-- Witness for C10: a two-word list with a gap between the spans, probed
at a negative time, yields an index inside `[0, 1]`. -/
theorem getCurrentWordIndex_total_witness :
    0 ≤ getCurrentWordIndex
        [{ text := "a", startTime := 0, endTime := 1, index := 0 },
         { text := "b", startTime := 2, endTime := 3, index := 1 }] (-5) 1 ∧
    getCurrentWordIndex
        [{ text := "a", startTime := 0, endTime := 1, index := 0 },
         { text := "b", startTime := 2, endTime := 3, index := 1 }] (-5) 1 ≤
      (([{ text := "a", startTime := 0, endTime := 1, index := 0 },
          { text := "b", startTime := 2, endTime := 3, index := 1 }] : List WordInfo).length : ℤ) - 1 :=
  (getCurrentWordIndex_total _ (-5) 1).2 (by simp)

theorem genAux_cons (W d : ℚ) (w : String) (wt : ℚ) (rest : List (String × ℚ))
    (t : ℚ) (i : ℕ) :
    genAux W d ((w, wt) :: rest) t i =
      { text := w, startTime := t, endTime := t + wt / W * d, index := i } ::
        genAux W d rest (t + wt / W * d) (i + 1) := rfl

theorem genAux_length (W d : ℚ) (l : List (String × ℚ)) :
    ∀ (t : ℚ) (i : ℕ), (genAux W d l t i).length = l.length := by
  induction l with
  | nil => intro t i; rfl
  | cons p rest ih =>
    intro t i
    obtain ⟨w, wt⟩ := p
    rw [genAux_cons]
    simp [ih]

theorem genAux_texts (W d : ℚ) (l : List (String × ℚ)) :
    ∀ (t : ℚ) (i : ℕ),
      (genAux W d l t i).map (fun x => x.text) = l.map Prod.fst := by
  induction l with
  | nil => intro t i; rfl
  | cons p rest ih =>
    intro t i
    obtain ⟨w, wt⟩ := p
    rw [genAux_cons]
    simp [ih]

theorem genAux_chain (W d : ℚ) (l : List (String × ℚ)) :
    ∀ (t : ℚ) (i : ℕ),
      List.Chain' (fun a b => b.startTime = a.endTime) (genAux W d l t i) := by
  induction l with
  | nil => intro t i; simp [genAux]
  | cons p rest ih =>
    intro t i
    obtain ⟨w, wt⟩ := p
    rw [genAux_cons]
    cases rest with
    | nil => simp [genAux]
    | cons q rest2 =>
      obtain ⟨w2, wt2⟩ := q
      rw [genAux_cons, List.chain'_cons]
      exact ⟨rfl, by rw [← genAux_cons]; exact ih _ _⟩

theorem genAux_lastEnd (W d : ℚ) (l : List (String × ℚ)) :
    ∀ (t : ℚ) (i : ℕ), l ≠ [] →
      (genAux W d l t i).getLast?.map (fun x => x.endTime) =
        some (t + (l.map Prod.snd).sum / W * d) := by
  induction l with
  | nil => intro t i h; exact absurd rfl h
  | cons p rest ih =>
    intro t i _
    obtain ⟨w, wt⟩ := p
    cases rest with
    | nil =>
      rw [genAux_cons]
      simp [genAux]
    | cons q rest2 =>
      obtain ⟨w2, wt2⟩ := q
      rw [genAux_cons, genAux_cons, List.getLast?_cons_cons, ← genAux_cons,
        ih _ _ (List.cons_ne_nil _ _)]
      have : (((w, wt) :: (w2, wt2) :: rest2).map Prod.snd).sum =
          wt + (((w2, wt2) :: rest2).map Prod.snd).sum := by simp
      rw [this]
      congr 1
      ring

theorem getWordWeight_pos (w : String) : 0 < getWordWeight w :=
  lt_of_lt_of_le (by norm_num) (le_max_left _ _)

theorem sum_weights_pos (ws : List String) (h : ws ≠ []) :
    0 < (ws.map getWordWeight).sum := by
  cases ws with
  | nil => exact absurd rfl h
  | cons w rest =>
    simp only [List.map_cons, List.sum_cons]
    have h1 := getWordWeight_pos w
    have h2 : 0 ≤ (rest.map getWordWeight).sum := by
      refine List.sum_nonneg ?_
      intro x hx
      obtain ⟨y, _, rfl⟩ := List.mem_map.mp hx
      exact (getWordWeight_pos y).le
    linarith

theorem generateWordTimestamps_length (ws : List String) (d : ℚ) :
    (generateWordTimestamps ws d).length = ws.length := by
  simp only [generateWordTimestamps]
  rw [genAux_length]
  simp

/-- C2: for every non-empty word list and positive duration,
`generateWordTimestamps` returns one entry per input word, in order, with
the same text; the first span starts at 0; adjacent spans are contiguous
(each word's `startTime` is the previous word's `endTime`); and the last
span ends exactly at the requested duration. -/
theorem generateWordTimestamps_spans (words : List String) (duration : ℚ)
    (hne : words ≠ []) (hd : 0 < duration) :
    ((generateWordTimestamps words duration).map (fun x => x.text) = words) ∧
    ((generateWordTimestamps words duration).head?.map (fun x => x.startTime) =
      some 0) ∧
    List.Chain' (fun a b => b.startTime = a.endTime)
      (generateWordTimestamps words duration) ∧
    ∀ h : generateWordTimestamps words duration ≠ [],
      ((generateWordTimestamps words duration).getLast h).endTime = duration := by
  have hW : 0 < (words.map getWordWeight).sum := sum_weights_pos words hne
  refine ⟨?_, ?_, ?_, ?_⟩
  · simp only [generateWordTimestamps]
    rw [genAux_texts, List.map_fst_zip]
    simp
  · obtain ⟨w0, rest0, rfl⟩ : ∃ w0 rest0, words = w0 :: rest0 := by
      cases words with
      | nil => exact absurd rfl hne
      | cons a b => exact ⟨a, b, rfl⟩
    simp only [generateWordTimestamps, List.map_cons, List.zip_cons_cons]
    rw [genAux_cons]
    rfl
  · simp only [generateWordTimestamps]
    exact genAux_chain _ _ _ _ _
  · intro h
    have hzip : words.zip (words.map getWordWeight) ≠ [] := by
      cases words with
      | nil => exact absurd rfl hne
      | cons a b => simp
    have hsnd : (words.zip (words.map getWordWeight)).map Prod.snd =
        words.map getWordWeight := List.map_snd_zip _ _ (by simp)
    have key : (generateWordTimestamps words duration).getLast?.map
        (fun x => x.endTime) = some duration := by
      simp only [generateWordTimestamps]
      rw [genAux_lastEnd _ _ _ _ _ hzip, hsnd, div_self hW.ne']
      norm_num
    rw [List.getLast?_eq_getLast _ h] at key
    simpa using key

/-- Witness for C2: the span properties instantiated on the two-word list
`["Hello", "world."]` with duration 7. -/
theorem generateWordTimestamps_spans_witness :
    ((generateWordTimestamps ["Hello", "world."] 7).map (fun x => x.text) =
      ["Hello", "world."]) ∧
    ((generateWordTimestamps ["Hello", "world."] 7).head?.map
      (fun x => x.startTime) = some 0) ∧
    List.Chain' (fun a b => b.startTime = a.endTime)
      (generateWordTimestamps ["Hello", "world."] 7) ∧
    (generateWordTimestamps ["Hello", "world."] 7).getLast?.map
      (fun x => x.endTime) = some 7 := by
  have h := generateWordTimestamps_spans ["Hello", "world."] 7 (by simp) (by norm_num)
  have hne : generateWordTimestamps ["Hello", "world."] 7 ≠ [] := by
    intro hnil
    have hl := generateWordTimestamps_length ["Hello", "world."] 7
    rw [hnil] at hl
    simp at hl
  refine ⟨h.1, h.2.1, h.2.2.1, ?_⟩
  rw [List.getLast?_eq_getLast _ hne]
  simp [h.2.2.2 hne]

theorem withGlobalIdx_indices (g : ℕ) (l : List WordInfo) :
    ∀ i : ℕ, (withGlobalIdx g l i).map (fun w => w.index) =
      List.range' (g + i) l.length := by
  induction l with
  | nil => intro i; rfl
  | cons x rest ih =>
    intro i
    simp only [withGlobalIdx, List.map_cons, ih (i + 1), List.length_cons,
      List.range'_succ]
    rfl

theorem range'_glue (n : ℕ) :
    ∀ g m : ℕ, List.range' g n ++ List.range' (g + n) m = List.range' g (n + m) := by
  induction n with
  | zero => intro g m; simp
  | succ n ih =>
    intro g m
    rw [List.range'_succ, show n + 1 + m = (n + m) + 1 from by omega,
      List.range'_succ, List.cons_append,
      show g + (n + 1) = g + 1 + n from by omega, ih (g + 1) m]

theorem chunkTextAux_indices (wpc : ℕ) (hw : 1 ≤ wpc) :
    ∀ (fuel : ℕ) (ws : List String) (chunkNo g : ℕ), ws.length ≤ fuel →
      allWordIndices (chunkTextAux wpc fuel ws chunkNo g) =
        List.range' g ws.length := by
  intro fuel
  induction fuel with
  | zero =>
    intro ws chunkNo g hlen
    have hnil : ws = [] := List.length_eq_zero.mp (by omega)
    subst hnil; rfl
  | succ fuel ih =>
    intro ws chunkNo g hlen
    cases ws with
    | nil => rfl
    | cons w rest =>
      simp only [chunkTextAux, allWordIndices]
      rw [withGlobalIdx_indices, generateWordTimestamps_length,
        ih ((w :: rest).drop wpc) (chunkNo + 1)
          (g + ((w :: rest).take wpc).length)
          (by simp only [List.length_drop]; omega),
        List.length_drop, Nat.add_zero, range'_glue]
      congr 1
      simp only [List.length_take, List.length_cons]
      omega

/-- C3: for every input text and every `wordsPerChunk ≥ 1`, the global
`index` values carried by the word units of `chunkText`, concatenated in
chunk order, are exactly `0 .. N-1` — no gap, no repeat, no reset at chunk
boundaries — where `N` is the total word count of the text as the chunker
tokenizes it. -/
theorem chunkText_globalIndices (text : String) (wpc : ℕ) (hw : 1 ≤ wpc) :
    allWordIndices (chunkText text wpc) = List.range (totalWords text) := by
  simp only [chunkText, totalWords]
  rw [chunkTextAux_indices wpc hw _ _ 0 0 (by simp), List.range_eq_range']
  simp

/-- Witness for C3: the spec's scenario text, one chunk of at most 10
words, global indices 0, 1, 2, 3. -/
theorem chunkText_globalIndices_witness :
    allWordIndices (chunkText "Hello world. Goodbye now." 10) =
      List.range (totalWords "Hello world. Goodbye now.") :=
  chunkText_globalIndices "Hello world. Goodbye now." 10 (by norm_num)

/-- Counterexample to C4: the empty input and a whitespace-only input do
not give an empty chunk list.  JS `"".split(/\s+/)` is `[""]`, so the
chunker emits one chunk holding a single empty-string word. -/
theorem chunkText_empty_counterexample :
    chunkText "" 1 ≠ [] ∧ chunkText " " 1 ≠ [] := by
  constructor <;> decide

theorem dropWhile_append_of_all (p : Char → Bool) (l1 l2 : List Char)
    (h : ∀ c ∈ l1, p c = true) :
    (l1 ++ l2).dropWhile p = l2.dropWhile p := by
  induction l1 with
  | nil => simp
  | cons c rest ih =>
    simp only [List.cons_append, List.dropWhile_cons, h c (by simp)]
    exact ih (fun x hx => h x (by simp [hx]))

theorem dropWhile_all_nil (p : Char → Bool) (l : List Char)
    (h : ∀ c ∈ l, p c = true) : l.dropWhile p = [] := by
  have h2 := dropWhile_append_of_all p l [] h
  simpa using h2

theorem dropWhile_append_split (p : Char → Bool) (s post : List Char) :
    (s ++ post).dropWhile p =
      if s.dropWhile p = [] then post.dropWhile p else s.dropWhile p ++ post := by
  induction s with
  | nil => simp
  | cons c cs ih =>
    by_cases hc : p c = true
    · simpa [List.dropWhile_cons, hc] using ih
    · simp [List.dropWhile_cons, hc]

theorem jsTrim_pad (pre post s : List Char)
    (hpre : ∀ c ∈ pre, c.isWhitespace = true)
    (hpost : ∀ c ∈ post, c.isWhitespace = true) :
    jsTrim (pre ++ s ++ post) = jsTrim s := by
  simp only [jsTrim, List.append_assoc]
  rw [dropWhile_append_of_all _ pre (s ++ post) hpre, dropWhile_append_split]
  by_cases hs : s.dropWhile Char.isWhitespace = []
  · rw [if_pos hs, hs, dropWhile_all_nil _ post hpost]
  · rw [if_neg hs, List.reverse_append,
      dropWhile_append_of_all _ post.reverse (s.dropWhile Char.isWhitespace).reverse
        (fun c hc => hpost c (List.mem_reverse.mp hc))]

theorem withGlobalIdx_length (g : ℕ) (l : List WordInfo) :
    ∀ i : ℕ, (withGlobalIdx g l i).length = l.length := by
  induction l with
  | nil => intro i; rfl
  | cons x rest ih => intro i; simp [withGlobalIdx, ih]

theorem withGlobalIdx_texts (g : ℕ) (l : List WordInfo) :
    ∀ i : ℕ, (withGlobalIdx g l i).map (fun w => w.text) =
      l.map (fun w => w.text) := by
  induction l with
  | nil => intro i; rfl
  | cons x rest ih => intro i; simp [withGlobalIdx, ih]

theorem generateWordTimestamps_texts (ws : List String) (d : ℚ) :
    (generateWordTimestamps ws d).map (fun x => x.text) = ws := by
  simp only [generateWordTimestamps]
  rw [genAux_texts, List.map_fst_zip]
  simp

/-- C4 (amended): `chunkText` of the empty string — for any
`wordsPerChunk ≥ 1` — is a single chunk holding one word whose text is the
empty string (JS `"".split(/\s+/)` yields `[""]`, not `[]`), and the same
holds for whitespace-only input; surrounding a text with leading or
trailing whitespace never changes the chunking at all, so it never
produces extra words or chunks. -/
theorem chunkText_empty_amended (wpc : ℕ) (hw : 1 ≤ wpc) :
    (∀ (pre post : List Char) (s : String),
      (∀ c ∈ pre, c.isWhitespace = true) → (∀ c ∈ post, c.isWhitespace = true) →
      chunkText (String.mk (pre ++ s.data ++ post)) wpc = chunkText s wpc) ∧
    (chunkText "" wpc).length = 1 ∧
    (∀ ch ∈ chunkText "" wpc, ch.words.length = 1 ∧ ∀ w ∈ ch.words, w.text = "") := by
  obtain ⟨k, rfl⟩ : ∃ k, wpc = k + 1 := ⟨wpc - 1, by omega⟩
  refine ⟨?_, ?_, ?_⟩
  · intro pre post s hpre hpost
    simp only [chunkText]
    rw [jsTrim_pad pre post s.data hpre hpost]
  · simp [chunkText, chunkTextAux]
  · intro ch hch
    simp only [chunkText] at hch
    rw [show (splitWs (jsTrim "".data)).map (fun l => String.mk l) = [""] from rfl] at hch
    simp only [chunkTextAux, List.take_succ_cons, List.take_nil, List.drop_succ_cons,
      List.drop_nil, List.mem_singleton] at hch
    subst hch
    constructor
    · simp [withGlobalIdx_length, generateWordTimestamps_length]
    · intro w hw2
      have hw2b : w ∈ withGlobalIdx 0 (generateWordTimestamps [""]
          ((([""] : List String).length : ℚ) / 150 * 60)) 0 := hw2
      have hmem := List.mem_map_of_mem (fun x => x.text) hw2b
      rw [withGlobalIdx_texts, generateWordTimestamps_texts] at hmem
      simpa using hmem

theorem getWordWeight_world : getWordWeight "world." = 9 / 2 := by
  simp only [getWordWeight]
  rw [show countSyllables (List.filter (fun c => !isPunct c) "world.".data) = 1 from by decide]
  rw [show pauseWeightOf "world.".data.getLast? = 3 from rfl]
  rw [show (List.filter (fun c => !isPunct c) "world.".data).length = 5 from by decide]
  norm_num [max_def]

theorem getWordWeight_hello : getWordWeight "Hello" = 5 / 2 := by
  simp only [getWordWeight]
  rw [show countSyllables (List.filter (fun c => !isPunct c) "Hello".data) = 2 from by decide]
  rw [show pauseWeightOf "Hello".data.getLast? = 0 from rfl]
  rw [show (List.filter (fun c => !isPunct c) "Hello".data).length = 5 from by decide]
  norm_num [max_def]

/-- Counterexample to C5: the pre-normalization weight of `"world."` does
not exceed the weight of `"Hello"` by at least 3.0 — the gap is exactly 2.0
(the +3.0 sentence-ending pause minus the one extra syllable of `"Hello"`,
which has two to `"world"`'s one). -/
theorem getWordWeight_gap_counterexample :
    getWordWeight "world." - getWordWeight "Hello" < 3 := by
  rw [getWordWeight_world, getWordWeight_hello]
  norm_num

/-- C5 (amended): `getWordWeight "world."` is 4.5 = 1 syllable + 3.0
sentence-ending pause + 0.5 base; `getWordWeight "Hello"` is 2.5 =
2 syllables + 0.5 base; the sentence-ending word outweighs the bare word
by exactly 2.0. -/
theorem getWordWeight_world_hello_gap :
    getWordWeight "world." = 9 / 2 ∧ getWordWeight "Hello" = 5 / 2 ∧
    getWordWeight "world." - getWordWeight "Hello" = 2 := by
  refine ⟨getWordWeight_world, getWordWeight_hello, ?_⟩
  rw [getWordWeight_world, getWordWeight_hello]
  norm_num

/-- Counterexample to C6: a buffer that is silent except for its very last
window.  The loop ends with the segment still open, and the final push has
no minimum-duration check: the returned segment is 10 ms long, well under
the 80 ms minimum the claim asserts for every segment. -/
theorem detectSpeechSegments_short_final_counterexample :
    detectSpeechSegments [0, 0, 0, 1] 100 =
      [{ start := 3 / 100, endTime := 1 / 25, amplitude := 1 }] ∧
    ∃ seg ∈ detectSpeechSegments [0, 0, 0, 1] 100,
      seg.endTime - seg.start < minSegmentDuration := by
  have heval : detectSpeechSegments [0, 0, 0, 1] 100 =
      [{ start := 3 / 100, endTime := 1 / 25, amplitude := 1 }] := by
    norm_num [detectSpeechSegments, detectLoop, amplitudeThresholdSq,
      minSilenceDuration, minSegmentDuration]
  refine ⟨heval, ⟨{ start := 3 / 100, endTime := 1 / 25, amplitude := 1 }, ?_, ?_⟩⟩
  · rw [heval]; simp
  · norm_num [minSegmentDuration]

/-- Every segment the window loop itself closes passes the
minimum-duration check, so the accumulated segment list only ever grows by
segments of at least `MIN_SEGMENT_DURATION`. -/
theorem detectLoop_minDuration (sampleRate windowSize : ℕ) :
    ∀ (fuel : ℕ) (data : List ℚ) (i : ℕ) (segStart : Option ℚ)
      (silence maxAmp : ℚ) (segments : List AudioSegment),
      (∀ seg ∈ segments, minSegmentDuration ≤ seg.endTime - seg.start) →
      ∀ seg ∈ (detectLoop sampleRate windowSize fuel data i segStart
          silence maxAmp segments).2.2,
        minSegmentDuration ≤ seg.endTime - seg.start := by
  intro fuel
  induction fuel with
  | zero =>
    intro data i segStart silence maxAmp segments hacc seg hseg
    exact hacc seg hseg
  | succ fuel ih =>
    intro data i segStart silence maxAmp segments hacc seg hseg
    cases data with
    | nil => exact hacc seg hseg
    | cons x rest =>
      cases segStart with
      | none =>
        simp only [detectLoop] at hseg
        split at hseg
        · exact ih _ _ _ _ _ _ hacc seg hseg
        · exact ih _ _ _ _ _ _ hacc seg hseg
      | some s =>
        simp only [detectLoop] at hseg
        split at hseg
        · exact ih _ _ _ _ _ _ hacc seg hseg
        · split at hseg
          · split at hseg
            case isTrue hpush =>
              refine ih _ _ _ _ _ _ ?_ seg hseg
              intro s2 hs2
              rcases List.mem_append.mp hs2 with h | h
              · exact hacc s2 h
              · simp only [List.mem_singleton] at h
                subst h
                simpa using hpush
            case isFalse => exact ih _ _ _ _ _ _ hacc seg hseg
          · exact ih _ _ _ _ _ _ hacc seg hseg

theorem detectSpeechSegments_dropLast_minDuration (channelData : List ℚ)
    (sampleRate : ℕ) :
    ∀ seg ∈ (detectSpeechSegments channelData sampleRate).dropLast,
      minSegmentDuration ≤ seg.endTime - seg.start := by
  intro seg hseg
  have hall := detectLoop_minDuration sampleRate (sampleRate / 100)
    channelData.length channelData 0 none 0 0 [] (by simp)
  simp only [detectSpeechSegments] at hseg
  rcases hdl : detectLoop sampleRate (sampleRate / 100) channelData.length
      channelData 0 none 0 0 [] with ⟨segStart, maxAmp, segments⟩
  rw [hdl] at hseg hall
  cases segStart with
  | some s =>
    simp only at hseg
    rw [List.dropLast_concat] at hseg
    exact hall seg (by simpa using hseg)
  | none =>
    simp only at hseg
    exact hall seg (by simpa using (List.dropLast_sublist _).subset hseg)

/-- C6 (amended): every segment returned by `detectSpeechSegments` except
possibly the last one is at least `MIN_SEGMENT_DURATION` (0.08 s) long;
segments closed by silence during the scan are discarded when shorter, but
the final still-open segment is pushed at end-of-buffer without the check
and may be arbitrarily short. -/
theorem detectSpeechSegments_minDuration (channelData : List ℚ) (sampleRate : ℕ) :
    (detectSpeechSegments channelData sampleRate).dropLast.all
      (fun seg => decide (minSegmentDuration ≤ seg.endTime - seg.start)) = true := by
  rw [List.all_eq_true]
  intro seg hseg
  rw [decide_eq_true_eq]
  exact detectSpeechSegments_dropLast_minDuration channelData sampleRate seg hseg

theorem fallbackAux_eq_genAux (W d : ℚ) (l : List (String × ℚ)) :
    ∀ (t : ℚ) (i : ℕ),
      fallbackAux W d l t =
        (genAux W d l t i).map (fun x =>
          { text := x.text, start := x.startTime, endTime := x.endTime,
            confidence := 1 / 2 }) := by
  induction l with
  | nil => intro t i; rfl
  | cons p rest ih =>
    intro t i
    obtain ⟨w, wt⟩ := p
    simp only [fallbackAux, genAux_cons, List.map_cons]
    rw [ih (t + wt / W * d) (i + 1)]

/-- C7: calling the alignment resolver with an empty segment list falls
back entirely to the weight model: for every non-empty word list and
positive total duration, `alignSegmentsToWords [] words d` returns, word
for word, exactly the spans of `generateWordTimestamps words d` with every
confidence equal to 0.5. -/
theorem alignSegmentsToWords_empty (words : List String) (totalDuration : ℚ)
    (hne : words ≠ []) (hd : 0 < totalDuration) :
    alignSegmentsToWords [] words totalDuration =
      (generateWordTimestamps words totalDuration).map (fun x =>
        { text := x.text, start := x.startTime, endTime := x.endTime,
          confidence := 1 / 2 }) := by
  have hlen : words.length ≠ 0 := by
    cases words with
    | nil => exact absurd rfl hne
    | cons a b => simp
  have h1 : ¬ (([] : List AudioSegment).length = words.length) := by
    simp only [List.length_nil]
    omega
  have h2 : ¬ (words.length < ([] : List AudioSegment).length) := by simp
  simp only [alignSegmentsToWords]
  rw [if_neg h1, if_neg h2]
  simp only [splitSegmentsToWords, List.length_nil, if_pos]
  simp only [generateWordTimestamps]
  exact fallbackAux_eq_genAux _ _ _ 0 0

/-- Witness for C7: instantiated on a concrete two-word list and duration. -/
theorem alignSegmentsToWords_empty_witness :
    alignSegmentsToWords [] ["Hi", "there."] 2 =
      (generateWordTimestamps ["Hi", "there."] 2).map (fun x =>
        { text := x.text, start := x.startTime, endTime := x.endTime,
          confidence := 1 / 2 }) :=
  alignSegmentsToWords_empty ["Hi", "there."] 2 (by simp) (by norm_num)

/-- Witness for C4 (amended): at `wordsPerChunk = 1`, padding `"a b"` with
whitespace changes nothing, and the empty input yields one chunk holding
one empty-string word. -/
theorem chunkText_empty_amended_witness :
    chunkText (String.mk ([' '] ++ "a b".data ++ [' ', '\n'])) 1 = chunkText "a b" 1 ∧
    (chunkText "" 1).length = 1 ∧
    (chunkText "" 1).head?.map (fun ch => ch.words.map (fun w => w.text)) =
      some [""] := by
  have h := chunkText_empty_amended 1 (by norm_num)
  refine ⟨h.1 [' '] [' ', '\n'] "a b" (by decide) (by decide), h.2.1, ?_⟩
  rcases hl : chunkText "" 1 with _ | ⟨ch, rest⟩
  · rw [hl] at h
    simp at h
  · have hrest : rest = [] := by
      have h2 := h.2.1
      rw [hl] at h2
      simpa using h2
    have hch : ch ∈ chunkText "" 1 := by
      rw [hl]
      exact List.mem_cons_self _ _
    obtain ⟨hwlen, hwtext⟩ := h.2.2 ch hch
    subst hrest
    rcases hws : ch.words with _ | ⟨w0, ws0⟩
    · rw [hws] at hwlen
      simp at hwlen
    · have hws0 : ws0 = [] := by
        rw [hws] at hwlen
        simpa using hwlen
      subst hws0
      simp [hws, hwtext w0 (by rw [hws]; exact List.mem_cons_self _ _)]

/-- C8: in `convertCharacterTimingsToWords` every word yields exactly one
span (a mismatch is never surfaced as an error: the function is total, one
output per word), and at every cursor position of the word loop
(`convertAux`): a fully matched word receives the span from the minimum of
its matched characters' starts to the maximum of their ends (the maximum
seeded with the source's 0 initializer) with confidence 1.0, and the
cursor advances by the word's length; a word whose characters mismatch (or
run out, or an empty word) receives a fallback span starting at the
previous emitted word's end (`prevEnd`, 0 for the first word) with
duration 0.3 and confidence 0.5, the cursor still advances by exactly the
word's length, and matching resumes for the remaining words. -/
theorem convertCharacterTimings_word_spec :
    (∀ (text : String) (characters : List Char) (startTimes endTimes : List ℚ)
        (g : ℕ),
      (convertCharacterTimingsToWords text characters startTimes endTimes g).length =
        (splitWs (jsTrim text.data)).length) ∧
    (∀ (nonSpaceChars : List CharTiming) (word : String) (rest : List String)
        (charIndex : ℕ) (prevEnd : ℚ),
      ((runOf nonSpaceChars charIndex word).length = word.length ∧
          runOf nonSpaceChars charIndex word ≠ [] →
        ∃ s e, convertAux nonSpaceChars (word :: rest) charIndex prevEnd =
            { text := word, start := s, endTime := e, confidence := 1 }
              :: convertAux nonSpaceChars rest (charIndex + word.length) e ∧
          s ∈ (runOf nonSpaceChars charIndex word).map (fun t => t.start) ∧
          (∀ t ∈ runOf nonSpaceChars charIndex word, s ≤ t.start) ∧
          (e = 0 ∨ e ∈ (runOf nonSpaceChars charIndex word).map (fun t => t.endTime)) ∧
          0 ≤ e ∧ (∀ t ∈ runOf nonSpaceChars charIndex word, t.endTime ≤ e)) ∧
      (¬ ((runOf nonSpaceChars charIndex word).length = word.length ∧
            runOf nonSpaceChars charIndex word ≠ []) →
        convertAux nonSpaceChars (word :: rest) charIndex prevEnd =
          { text := word, start := prevEnd, endTime := prevEnd + 3 / 10,
            confidence := 1 / 2 }
            :: convertAux nonSpaceChars rest (charIndex + word.length)
                (prevEnd + 3 / 10))) := by
  constructor
  · intro text characters startTimes endTimes g
    simp only [convertCharacterTimingsToWords]
    rw [convertAux_length]
    simp
  · intro ns word rest charIndex prevEnd
    have hscan := scanWord_eq word.data (ns.drop charIndex) none 0 0
    constructor
    · rintro ⟨hlen, hne⟩
      simp only [runOf] at hlen hne ⊢
      obtain ⟨r, hr, hmem, hall⟩ := foldl_optMin_none_spec _ hne
      obtain ⟨hE1, hE2, hE3⟩ :=
        foldl_max_spec (matchedRun word.data (ns.drop charIndex)) 0
      refine ⟨r, (matchedRun word.data (ns.drop charIndex)).foldl
          (fun a t => max a t.endTime) 0, ?_, ?_, ?_, ?_, ?_, ?_⟩
      · simp only [convertAux]
        rw [hscan, hr]
        simp [hlen]
      · exact hmem
      · exact hall
      · exact hE1
      · exact hE2
      · exact hE3
    · intro hnot
      simp only [runOf] at hnot
      by_cases hme : matchedRun word.data (ns.drop charIndex) = []
      · simp only [convertAux]
        rw [hscan, hme]
        simp
      · have hlen2 : ¬ ((matchedRun word.data (ns.drop charIndex)).length =
            word.length) := fun hh => hnot ⟨hh, hme⟩
        obtain ⟨r, hr, _, _⟩ := foldl_optMin_none_spec _ hme
        simp only [convertAux]
        rw [hscan, hr]
        simp [hlen2]

/-- Witness for C8: the word `"cd"` meets the characters `x`, `d` at
cursor 2 — a mismatch on its first character — and receives the fallback
span `[0.2, 0.2 + 0.3)` with confidence 0.5. -/
theorem convertCharacterTimings_word_spec_witness :
    convertAux
        [{ char := 'a', start := 0, endTime := 1 / 10 },
         { char := 'b', start := 1 / 10, endTime := 1 / 5 },
         { char := 'x', start := 1 / 5, endTime := 3 / 10 },
         { char := 'd', start := 3 / 10, endTime := 2 / 5 }]
        ["cd"] 2 (1 / 5) =
      [{ text := "cd", start := 1 / 5, endTime := 1 / 5 + 3 / 10,
         confidence := 1 / 2 }] := by
  have hrun : runOf
      [{ char := 'a', start := 0, endTime := 1 / 10 },
       { char := 'b', start := 1 / 10, endTime := 1 / 5 },
       { char := 'x', start := 1 / 5, endTime := 3 / 10 },
       { char := 'd', start := 3 / 10, endTime := 2 / 5 }] 2 "cd" = [] := rfl
  have h := (convertCharacterTimings_word_spec.2
      [{ char := 'a', start := 0, endTime := 1 / 10 },
       { char := 'b', start := 1 / 10, endTime := 1 / 5 },
       { char := 'x', start := 1 / 5, endTime := 3 / 10 },
       { char := 'd', start := 3 / 10, endTime := 2 / 5 }]
      "cd" [] 2 (1 / 5)).2 (fun hc => hc.2 hrun)
  rw [h]
  rfl

end OpenReader
